import Mathlib

/-!
Verification development for the pazuzu repository.

The pazuzu tool assembles a container build out of named "feature" fragments.
This file embeds, as executable Lean definitions, the parts of the code that
the verified properties are about:

* the recursive dependency resolver of `storageconnector` (`GitStorage.Resolve`
  and the recursive helper `resolve`);
* the Dockerfile writer of package `pazuzu` (`fixCopyCmd`,
  `DockerfileWriter.AppendFeature`);
* the `main`-package build pipeline (`generateDockerfile`,
  `generateTestSpec` / `readTestSpec`, `RunTestSpec` / `dockerExec`).

The Go code is embedded shallowly: maps become association lists (with
prepend-insert, so the first hit of `List.lookup` is the latest write, matching
overwrite semantics), errors become `Except`, and the unbounded recursion of
`resolve` (the Go code has no cycle guard and recurses forever on a dependency
cycle) is modelled with an explicit fuel parameter: a run of the Go code that
terminates is exactly a run of the model that succeeds for some fuel, and the
fuel-exhaustion error is the model of nontermination.
-/

namespace shared

/-- Embeds `shared.FeatureMeta` (the fields the resolver and writer read). -/
structure FeatureMeta where
  Name : String
  Description : String
  Author : String
  Dependencies : List String
deriving Repr, DecidableEq

/-- Embeds `shared.Feature`. -/
structure Feature where
  Meta : FeatureMeta
  Snippet : String
  TestSnippet : String
deriving Repr, DecidableEq

end shared

namespace storageconnector

open shared

/-- The feature data reachable from the latest commit of the backing git
repository, embedded as an association list from feature name to feature. -/
def Store := List (String × Feature)

/-- Errors of the git-backed resolver model.  `errFileNotFound` embeds
go-git's fixed sentinel `git.ErrFileNotFound` (`file not found`), which
`commit.File` produces for a missing file and which `getMeta`/`getFeature`
propagate unwrapped — it carries no feature name.  `outOfFuel` is the model
of the nontermination of the unguarded Go recursion. -/
inductive Err where
  | errFileNotFound
  | outOfFuel
deriving Repr, DecidableEq

/-- Embeds `getFeature` (file `git.go`): fetch one feature by exact name from
the store; when it is absent, `commit.File` on its `meta.yml` fails and the
resulting name-free sentinel error is returned as-is. -/
def getFeature (store : Store) (name : String) : Except Err Feature :=
  match List.lookup name store with
  | some f => .ok f
  | none => .error .errFileNotFound

/-- The mutable state threaded through `resolve`: the ordered name sequence
`*list` and the `result` map (association list, prepend on insert). -/
structure RState where
  list : List String
  result : List (String × Feature)
deriving Repr, DecidableEq

/-- Embeds the recursive `resolve` (file `git.go`): skip names already in the
result map (`if _, ok := result[name]; ok`), otherwise fetch the feature,
recursively resolve each of its dependencies in the order listed (the
`for _, depName := range feature.Meta.Dependencies` loop, here a `foldlM` over
`Except`), then append the name to the ordered list and insert the feature
into the map.  `fuel` bounds the recursion depth: the Go code has no such
bound and loops forever on a dependency cycle. -/
def resolve : (fuel : Nat) → Store → String → RState → Except Err RState
  | 0, _, _, _ => .error .outOfFuel
  | fuel + 1, store, name, st =>
    if (List.lookup name st.result).isSome then .ok st
    else
      match getFeature store name with
      | .error e => .error e
      | .ok feature =>
        match feature.Meta.Dependencies.foldlM
            (fun acc d => resolve fuel store d acc) st with
        | .error e => .error e
        | .ok st' =>
          .ok ⟨st'.list ++ [name], (name, feature) :: st'.result⟩

/-- The loop of `GitStorage.Resolve` (and, at one fuel level lower, the
dependency loop inside `resolve`): resolve each name in order against the
running state, propagating the first error. -/
def resolveList (fuel : Nat) (store : Store) (names : List String)
    (st : RState) : Except Err RState :=
  names.foldlM (fun acc d => resolve fuel store d acc) st

/-- `name` has an entry in the `result` map of `st`. -/
def memR (st : RState) (name : String) : Prop :=
  (List.lookup name st.result).isSome

instance (st : RState) (name : String) : Decidable (memR st name) := by
  unfold memR; infer_instance

/-- Embeds `GitStorage.Resolve` (file `git.go`): starting from an empty slice
and map, resolve each requested name in caller-supplied order and return the
ordered name sequence together with the feature map.  Note that the Go code
performs no empty-input check: an empty `names` yields `.ok ([], [])`. -/
def Resolve (fuel : Nat) (store : Store) (names : List String) :
    Except Err (List String × List (String × Feature)) :=
  match resolveList fuel store names ⟨[], []⟩ with
  | .error e => .error e
  | .ok st => .ok (st.list, st.result)

/-- The dependency list the store records for `name` (empty when the name is
absent, in which case `resolve` fails before ever using it). -/
def depsOf (store : Store) (name : String) : List String :=
  match List.lookup name store with
  | some f => f.Meta.Dependencies
  | none => []

/-- `b` is a direct dependency of `a` according to the store. -/
def depEdge (store : Store) (a b : String) : Prop :=
  b ∈ depsOf store a

/-- `name` lies on a dependency cycle of the store. -/
def Cyclic (store : Store) (name : String) : Prop :=
  Relation.TransGen (depEdge store) name name

/-- The result map is closed under dependencies: every resolved feature has all
of its direct dependencies resolved as well. -/
def Closed (store : Store) (st : RState) : Prop :=
  ∀ n, memR st n → ∀ d ∈ depsOf store n, memR st d

/-- Dependency-before-dependent order: wherever the list splits around a name,
all direct dependencies of that name lie in the left part. -/
def Ordered (store : Store) (l : List String) : Prop :=
  ∀ pre n post, l = pre ++ n :: post → ∀ d ∈ depsOf store n, d ∈ pre

/-- The resolver state invariant: the map keys are exactly the listed names
(in reverse insertion order), the ordered list is duplicate-free and
dependency-ordered, the map is closed under dependencies, and every resolved
name is present in the store. -/
def Inv (store : Store) (st : RState) : Prop :=
  st.result.map Prod.fst = st.list.reverse ∧
  st.list.Nodup ∧
  Ordered store st.list ∧
  Closed store st ∧
  (∀ n, memR st n → (List.lookup n store).isSome)

/-- Fetch-instrumented variant of `resolve`: identical control flow, but the
state additionally carries the ordered trace of names for which `getFeature`
was called (the store fetches).  Used to express that a shared feature is
fetched from the store only once per resolution call. -/
def resolveT : (fuel : Nat) → Store → String → RState × List String →
    Except Err (RState × List String)
  | 0, _, _, _ => .error .outOfFuel
  | fuel + 1, store, name, (st, tr) =>
    if (List.lookup name st.result).isSome then .ok (st, tr)
    else
      match getFeature store name with
      | .error e => .error e
      | .ok feature =>
        match feature.Meta.Dependencies.foldlM
            (fun acc d => resolveT fuel store d acc) (st, tr ++ [name]) with
        | .error e => .error e
        | .ok (st', tr') =>
          .ok (⟨st'.list ++ [name], (name, feature) :: st'.result⟩, tr')

/-- The loop of the fetch-instrumented resolver. -/
def resolveListT (fuel : Nat) (store : Store) (names : List String)
    (p : RState × List String) : Except Err (RState × List String) :=
  names.foldlM (fun acc d => resolveT fuel store d acc) p

/-- Fetch-instrumented variant of `GitStorage.Resolve`: also returns the
ordered trace of store fetches performed during the call. -/
def ResolveT (fuel : Nat) (store : Store) (names : List String) :
    Except Err ((List String × List (String × Feature)) × List String) :=
  match resolveListT fuel store names (⟨[], []⟩, []) with
  | .error e => .error e
  | .ok (st, tr) => .ok ((st.list, st.result), tr)

/-- Errors of the in-memory backend's resolution model. -/
inductive MemErr where
  | emptyInput
  | notFound (name : String)
  | outOfFuel
deriving Repr, DecidableEq

/-- Modelled from the spec: the in-memory backend's feature fetch.  The file
implementing the in-memory backend (`storageconnector/memory.go`) is not
among the embedded sources; only its test is, which pins the failure message
`Feature '<name>' was not found` — unlike the git backend, this backend's
not-found error names the feature. -/
def memGetFeature (store : Store) (name : String) : Except MemErr Feature :=
  match List.lookup name store with
  | some f => .ok f
  | none => .error (.notFound name)

/-- Modelled from the spec (§4.1): the in-memory backend's recursive
resolution step — the same depth-first algorithm as the git backend's
`resolve`, but failing with a `NotFound` condition naming the missing
feature. -/
def memResolve : (fuel : Nat) → Store → String → RState → Except MemErr RState
  | 0, _, _, _ => .error .outOfFuel
  | fuel + 1, store, name, st =>
    if (List.lookup name st.result).isSome then .ok st
    else
      match memGetFeature store name with
      | .error e => .error e
      | .ok feature =>
        match feature.Meta.Dependencies.foldlM
            (fun acc d => memResolve fuel store d acc) st with
        | .error e => .error e
        | .ok st' =>
          .ok ⟨st'.list ++ [name], (name, feature) :: st'.result⟩

/-- The resolution loop of the in-memory backend model. -/
def memResolveList (fuel : Nat) (store : Store) (names : List String)
    (st : RState) : Except MemErr RState :=
  names.foldlM (fun acc d => memResolve fuel store d acc) st

/-- Modelled from the spec: the in-memory storage backend's `Resolve`
(`storageconnector/memory.go`, absent from the embedded sources; its test
expects the error `No features provided to resolve` for an empty call and
name resolution like §4.1 otherwise).  It fails with the `EmptyInput`
condition if no names are supplied. -/
def memoryResolve (fuel : Nat) (store : Store) (names : List String) :
    Except MemErr (List String × List (String × Feature)) :=
  if names.isEmpty then .error .emptyInput
  else
    match memResolveList fuel store names ⟨[], []⟩ with
    | .error e => .error e
    | .ok st => .ok (st.list, st.result)

/-- Helper to build a feature with the given name and dependency list. -/
def mkFeature (name : String) (deps : List String) : Feature :=
  ⟨⟨name, "", "", deps⟩, "", ""⟩

/-- A small store with a dependency shared by two requested features. -/
def sampleStore : Store :=
  [("A", mkFeature "A" ["C"]), ("B", mkFeature "B" ["C"]),
   ("C", mkFeature "C" [])]

/-- A store whose single feature depends on a name absent from the store. -/
def sampleStoreMissing : Store :=
  [("A", mkFeature "A" ["B"])]

end storageconnector

namespace pazuzu

open shared

/-- Embeds `ErrInvalidCopyCmdSyntax` (file `dockerfile.go`): the error value
`Invalid 'COPY' command syntax`. -/
inductive DWErr where
  | invalidCopyCmdSyntax
deriving Repr, DecidableEq

/-- One instruction node of the parsed Dockerfile snippet, as produced by the
external Docker parser: the lowercased instruction word (`Value`), the chain
of argument tokens (`Next`, here a list), and the original line
(`Original`). -/
structure Node where
  value : String
  args : List String
  original : String
deriving Repr, DecidableEq

/-- Split a character list at every occurrence of the separator (the
semantics of `strings.Split`). -/
def splitChars (sep : Char) : List Char → List (List Char)
  | [] => [[]]
  | c :: rest =>
    match splitChars sep rest with
    | [] => if c = sep then [[], []] else [[c]]
    | h :: t => if c = sep then [] :: h :: t else (c :: h) :: t

/-- Split a line into whitespace-separated tokens. -/
def tokenize (line : List Char) : List (List Char) :=
  (splitChars ' ' line).filter (fun t => t ≠ [])

/-- One line of a snippet as an instruction node: blank lines and comment
lines yield no node; otherwise the first token, lowercased, is the
instruction and the remaining tokens are its arguments. -/
def parseLine (line : List Char) : Option Node :=
  match tokenize line with
  | [] => none
  | t :: rest =>
    match t with
    | '#' :: _ => none
    | _ => some ⟨String.mk (t.map Char.toLower), rest.map String.mk,
        String.mk line⟩

/-- Model, at the interface boundary, of the external Docker snippet parser
(`parser.Parse`) used by `DockerfileWriter.AppendFeature`: the snippet is
split into lines, each non-blank non-comment line becoming one instruction
node.  (Multi-line constructs of the full Docker syntax are outside what the
verified properties exercise.) -/
def parseSnippet (s : String) : List Node :=
  (splitChars '\n' s.data).filterMap parseLine

/-- Embeds `fixCopyCmd` (file `dockerfile.go`): take the first argument node
as source and the second as destination — failing with
`ErrInvalidCopyCmdSyntax` when either is missing — and rebuild the directive
with the source prefixed by the feature's name.  Any further argument tokens
are not read. -/
def fixCopyCmd (node : Node) (feature : Feature) : Except DWErr String :=
  match node.args with
  | [] => .error .invalidCopyCmdSyntax
  | src :: rest =>
    match rest with
    | [] => .error .invalidCopyCmdSyntax
    | dst :: _ =>
      .ok ("COPY " ++ feature.Meta.Name ++ "/" ++ src ++ " " ++ dst)

/-- The loop body of `DockerfileWriter.AppendFeature`: a `copy` node is
rewritten through `fixCopyCmd` and the fixed command appended with a newline
(`AppendRaw`); any other node's original line is appended verbatim with a
newline. -/
def appendStep (feature : Feature) (buf : String) (node : Node) :
    Except DWErr String :=
  if node.value = "copy" then
    match fixCopyCmd node feature with
    | .error e => .error e
    | .ok fixedCmd => .ok (buf ++ fixedCmd ++ "\n")
  else .ok (buf ++ node.original ++ "\n")

/-- Embeds `DockerfileWriter.AppendFeature` (file `dockerfile.go`): parse the
feature's snippet and run the emit loop over its instruction nodes.  Returns
the chunk appended to the writer's buffer, or the first rewrite error. -/
def appendFeature (feature : Feature) : Except DWErr String :=
  (parseSnippet feature.Snippet).foldlM (appendStep feature) ""

/-- The per-node output of a successful `appendFeature` run: rewritten copy
line for `copy` nodes (extra tokens beyond source and destination dropped),
original line otherwise, each endowed with its trailing newline. -/
def renderNode (feature : Feature) (node : Node) : String :=
  if node.value = "copy" then
    match node.args with
    | src :: dst :: _ =>
      "COPY " ++ feature.Meta.Name ++ "/" ++ src ++ " " ++ dst ++ "\n"
    | _ => ""
  else node.original ++ "\n"

/-- A composition error carrying the name of the offending feature. -/
structure ComposeErr where
  featureName : String
  err : DWErr
deriving Repr, DecidableEq

/-- The snippet of `f` contains a copy-class directive missing its source or
destination token. -/
def hasBadCopy (f : Feature) : Prop :=
  ∃ n ∈ parseSnippet f.Snippet, n.value = "copy" ∧ n.args.length ≤ 1

instance (f : Feature) : Decidable (hasBadCopy f) := by
  unfold hasBadCopy; infer_instance

/-- Modelled from the spec: the composition driver of §4.2 (the repository
code that drives `DockerfileWriter` over the resolved feature sequence is not
among the embedded sources; only the writer itself is).  It emits a header
selecting the base image, then per feature a comment naming it followed by
the writer's output for its snippet, aborting on the first failing feature
with an error identifying that feature by name, and finally a trailing
interactive-shell command directive. -/
def composeAux (features : List Feature) (acc : String) :
    Except ComposeErr String :=
  match features with
  | [] => .ok (acc ++ "CMD /bin/bash\n")
  | f :: rest =>
    match appendFeature f with
    | .error e => .error ⟨f.Meta.Name, e⟩
    | .ok chunk =>
      composeAux rest (acc ++ "# " ++ f.Meta.Name ++ "\n" ++ chunk)

/-- Modelled from the spec: `Compose(baseImage, orderedFeatures)` of §4.2. -/
def compose (baseImage : String) (features : List Feature) :
    Except ComposeErr String :=
  composeAux features ("FROM " ++ baseImage ++ "\n")

/-- A feature whose snippet holds a two-token copy directive. -/
def sampleFeatureCopy : Feature :=
  ⟨⟨"X", "", "", []⟩, "RUN apt-get update\nCOPY foo bar", ""⟩

/-- A feature whose snippet holds a malformed one-token copy directive. -/
def sampleFeatureBadCopy : Feature :=
  ⟨⟨"Y", "", "", []⟩, "RUN true\nCOPY foo", ""⟩

/-- A feature whose snippet holds a copy directive with three tokens. -/
def sampleFeatureCopyExtra : Feature :=
  ⟨⟨"Z", "", "", []⟩, "COPY a b c", ""⟩

end pazuzu

namespace Main

/-- Embeds the `main`-package `Feature` (file `pazuzu.go`): a feature as
fetched from the registry. -/
structure Feature where
  Name : String
  DockerData : String
  TestInstruction : String
deriving Repr, DecidableEq

/-- Embeds `Pazuzu.generateDockerfile` (file `pazuzu.go`): write
`FROM ubuntu:latest` into the buffer, then for each feature a comment line
with its name followed by its docker data and a newline, then
`CMD /bin/bash`.  The buffer accumulation is the `foldl`. -/
def generateDockerfile (features : List Feature) : String :=
  (features.foldl
    (fun buf feature =>
      buf ++ ("# " ++ feature.Name ++ "\n") ++ (feature.DockerData ++ "\n"))
    "FROM ubuntu:latest\n") ++ "CMD /bin/bash\n"

/-- Modelled from the spec (§4.2): composition with a caller-supplied
`baseImage` header, stated for comparison with `generateDockerfile`, whose
header is fixed. -/
def composeSpecHeader (baseImage : String) (features : List Feature) :
    String :=
  "FROM " ++ baseImage ++ "\n" ++
    String.join (features.map
      (fun f => "# " ++ f.Name ++ "\n" ++ f.DockerData ++ "\n")) ++
    "CMD /bin/bash\n"

/-- Embeds `TestSpec` (file `pazuzu.go`): one entry of the persisted test
plan, `{feature, cmd}`. -/
structure TestSpec where
  Feature : String
  Cmd : String
deriving Repr, DecidableEq

/-- The plan-building loop of `Pazuzu.generateTestSpec` (file `pazuzu.go`):
one `{feature, cmd}` entry per feature, in order, also when the test
instruction is empty. -/
def buildTestSpecs (features : List Feature) : List TestSpec :=
  features.foldl (fun specs f => specs ++ [⟨f.Name, f.TestInstruction⟩]) []

/-- The lowercase hexadecimal digit for a value below sixteen. -/
def hexDigit (n : Nat) : Char := Nat.digitChar n

/-- The value of a lowercase hexadecimal digit character. -/
def hexVal? (c : Char) : Option Nat :=
  if 48 ≤ c.toNat ∧ c.toNat ≤ 57 then some (c.toNat - 48)
  else if 97 ≤ c.toNat ∧ c.toNat ≤ 102 then some (c.toNat - 97 + 10)
  else none

/-- The value of a four-hex-digit escape. -/
def decodeHex (h1 h2 h3 h4 : Char) : Option Nat :=
  match hexVal? h1, hexVal? h2, hexVal? h3, hexVal? h4 with
  | some v1, some v2, some v3, some v4 =>
    some (((v1 * 16 + v2) * 16 + v3) * 16 + v4)
  | _, _, _, _ => none

/-- Model, at the interface boundary, of the JSON string escaping performed
by the external `encoding/json` encoder on the characters our encoder can
meet: quote, backslash, and control characters are escaped, everything else
passes through. -/
def escChar (c : Char) : List Char :=
  if c = '"' then ['\\', '"']
  else if c = '\\' then ['\\', '\\']
  else if c = '\n' then ['\\', 'n']
  else if c = '\r' then ['\\', 'r']
  else if c = '\t' then ['\\', 't']
  else if c.toNat < 32 then
    ['\\', 'u', '0', '0', hexDigit (c.toNat / 16), hexDigit (c.toNat % 16)]
  else [c]

/-- One plan entry as the characters of the JSON object
`{"feature":...,"cmd":...}` (field order fixed by the Go struct). -/
def encSpecChars (t : TestSpec) : List Char :=
  ("\x7b\"feature\":\"").data ++ (t.Feature.data.map escChar).flatten ++
    '"' :: (",\"cmd\":\"").data ++ (t.Cmd.data.map escChar).flatten ++
    '"' :: ("\x7d").data

/-- The comma-separated encodings of the plan entries after the first. -/
def encElemsChars : List TestSpec → List Char
  | [] => []
  | t :: ts => ',' :: encSpecChars t ++ encElemsChars ts

/-- Model of `json.Encoder.Encode` on the plan: a JSON array of entry
objects followed by a newline.  The Go code builds the plan with `append` on
a nil slice, so an empty plan stays nil and encodes as `null`. -/
def encodeSpecs (specs : List TestSpec) : String :=
  match specs with
  | [] => "null\n"
  | t :: ts =>
    String.mk ('[' :: encSpecChars t ++ encElemsChars ts ++ ("]\n").data)

/-- Embeds `Pazuzu.generateTestSpec` (file `pazuzu.go`): build the plan from
the features and serialize it; the returned string is the content written to
the plan file. -/
def generateTestSpec (features : List Feature) : String :=
  encodeSpecs (buildTestSpecs features)

/-- JSON string body parser (model of the external decoder on the strings our
encoder emits): consume characters until the closing quote, resolving the
escapes the encoder can produce. -/
def decString : List Char → Option (List Char × List Char)
  | [] => none
  | c :: rest =>
    if c = '"' then some ([], rest)
    else if c = '\\' then
      match rest with
      | [] => none
      | e :: rest2 =>
        if e = 'n' then (decString rest2).map (fun p => ('\n' :: p.1, p.2))
        else if e = 'r' then
          (decString rest2).map (fun p => ('\r' :: p.1, p.2))
        else if e = 't' then
          (decString rest2).map (fun p => ('\t' :: p.1, p.2))
        else if e = '"' then
          (decString rest2).map (fun p => ('"' :: p.1, p.2))
        else if e = '\\' then
          (decString rest2).map (fun p => ('\\' :: p.1, p.2))
        else if e = 'u' then
          match rest2 with
          | h1 :: h2 :: h3 :: h4 :: rest3 =>
            match decodeHex h1 h2 h3 h4 with
            | some v =>
              (decString rest3).map (fun p => (Char.ofNat v :: p.1, p.2))
            | none => none
          | _ => none
        else none
    else (decString rest).map (fun p => (c :: p.1, p.2))
termination_by structural l => l

/-- Consume an expected literal character sequence. -/
def stripLit : List Char → List Char → Option (List Char)
  | [], l => some l
  | _ :: _, [] => none
  | p :: ps, c :: cs => if c = p then stripLit ps cs else none

/-- Parse one plan-entry object of the shape the encoder emits. -/
def decSpec (l : List Char) : Option (TestSpec × List Char) := do
  let l ← stripLit ("\x7b\"feature\":\"").data l
  let (f, l) ← decString l
  let l ← stripLit (",\"cmd\":\"").data l
  let (c, l) ← decString l
  let l ← stripLit ("\x7d").data l
  pure (⟨String.mk f, String.mk c⟩, l)

/-- Parse the comma-separated entries of a nonempty plan array. -/
def decElems (fuel : Nat) (l : List Char) : Option (List TestSpec) :=
  match fuel with
  | 0 => none
  | fuel + 1 =>
    match decSpec l with
    | none => none
    | some (t, rest) =>
      match rest with
      | ']' :: _ => some [t]
      | ',' :: rest' =>
        match decElems fuel rest' with
        | none => none
        | some ts => some (t :: ts)
      | _ => none

/-- Character-level core of the plan decoder: `null` decodes to the empty
plan, an array to its entries. -/
def decodeSpecsChars (l : List Char) : Option (List TestSpec) :=
  match stripLit ("null").data l with
  | some _ => some []
  | none =>
    match l with
    | '[' :: rest => decElems (rest.length + 1) rest
    | _ => none

/-- Model of `json.Decoder.Decode` into `[]TestSpec` on the documents the
encoder emits. -/
def decodeSpecs (s : String) : Option (List TestSpec) :=
  decodeSpecsChars s.data

/-- Embeds `Pazuzu.readTestSpec` (file `pazuzu.go`): decode the plan-file
content, propagating a decode failure. -/
def readTestSpec (s : String) : Except String (List TestSpec) :=
  match decodeSpecs s with
  | some specs => .ok specs
  | none => .error "invalid test spec"

/-- Embeds `Pazuzu.dockerExec` (file `pazuzu.go`) with the container runtime
abstracted as `exec` mapping a command to its exit code and captured output:
a positive exit code becomes an error carrying the code and the output. -/
def dockerExec (exec : String → Nat × String) (cmd : String) :
    Except String Unit :=
  let r := exec cmd
  if 0 < r.1 then .error ("exit code " ++ toString r.1 ++ ": " ++ r.2)
  else .ok ()

/-- The test loop of `Pazuzu.RunTestSpec` (file `pazuzu.go`): run every plan
entry in order, incrementing `failedTests` on each failing `dockerExec` but
never stopping early.  Instrumented with the ordered trace of executed
commands. -/
def runLoop (exec : String → Nat × String) :
    List TestSpec → Nat → Nat × List String
  | [], failedTests => (failedTests, [])
  | s :: rest, failedTests =>
    let failedNext :=
      match dockerExec exec s.Cmd with
      | .error _ => failedTests + 1
      | .ok _ => failedTests
    let r := runLoop exec rest failedNext
    (r.1, s.Cmd :: r.2)

/-- Embeds `Pazuzu.RunTestSpec` (file `pazuzu.go`) after a successful plan
read and container start (container stop/removal modelled as succeeding):
run all entries, then fail iff the count of failing entries is positive. -/
def runTestSpec (exec : String → Nat × String) (specs : List TestSpec) :
    Except String Unit :=
  let r := runLoop exec specs 0
  if 0 < r.1 then .error ("number of failing tests: " ++ toString r.1)
  else .ok ()

/-- Sample features, one with an empty test instruction. -/
def sampleMainFeatures : List Feature :=
  [⟨"python", "RUN apt-get install python", "python -V"⟩,
   ⟨"quiet", "RUN true", ""⟩]

/-- A sample exec oracle: `false` fails with exit code 1, everything else
succeeds. -/
def sampleExec (cmd : String) : Nat × String :=
  if cmd = "false" then (1, "boom") else (0, "ok")

end Main

namespace storageconnector

open shared

section Lookup

variable {α : Type} {β : Type} [BEq α] [LawfulBEq α]

theorem lookup_cons_self {a : α} {b : β} {l : List (α × β)} :
    List.lookup a ((a, b) :: l) = some b := by
  simp [List.lookup]

theorem lookup_cons_ne {a k : α} {b : β} {l : List (α × β)} (h : a ≠ k) :
    List.lookup a ((k, b) :: l) = List.lookup a l := by
  simp [List.lookup, beq_false_of_ne h]

theorem lookup_isSome_iff {a : α} {l : List (α × β)} :
    (List.lookup a l).isSome ↔ a ∈ l.map Prod.fst := by
  induction l with
  | nil => simp [List.lookup]
  | cons p l ih =>
    obtain ⟨k, b⟩ := p
    by_cases h : a = k
    · subst h; simp [lookup_cons_self]
    · simp [lookup_cons_ne h, ih, h]

end Lookup

theorem memR_iff_mem_keys {st : RState} {n : String} :
    memR st n ↔ n ∈ st.result.map Prod.fst := by
  unfold memR; exact lookup_isSome_iff

/-- One-step unfolding of `resolve` at zero fuel. -/
theorem resolve_zero (store : Store) (name : String) (st : RState) :
    resolve 0 store name st = .error .outOfFuel := rfl

/-- One-step unfolding of `resolve` at positive fuel, phrased with
`resolveList` for the dependency loop. -/
theorem resolve_succ (fuel : Nat) (store : Store) (name : String)
    (st : RState) :
    resolve (fuel + 1) store name st =
      if memR st name then .ok st
      else
        match getFeature store name with
        | .error e => .error e
        | .ok feature =>
          match resolveList fuel store feature.Meta.Dependencies st with
          | .error e => .error e
          | .ok st' =>
            .ok ⟨st'.list ++ [name], (name, feature) :: st'.result⟩ := rfl

theorem resolveList_nil (fuel : Nat) (store : Store) (st : RState) :
    resolveList fuel store [] st = .ok st := rfl

theorem resolveList_cons (fuel : Nat) (store : Store) (d : String)
    (ds : List String) (st : RState) :
    resolveList fuel store (d :: ds) st =
      match resolve fuel store d st with
      | .error e => .error e
      | .ok st' => resolveList fuel store ds st' := by
  cases h : resolve fuel store d st <;>
    simp only [resolveList, List.foldlM_cons, h] <;> rfl

/-- Walking dependency edges from a resolved name stays inside a closed map. -/
theorem closedWalk {store : Store} {st : RState} (hcl : Closed store st)
    {a b : String} (hab : Relation.ReflTransGen (depEdge store) a b)
    (ha : memR st a) : memR st b := by
  induction hab with
  | refl => exact ha
  | tail _ hbc ih => exact hcl _ ih _ hbc

theorem memR_def {st : RState} {x : String} :
    memR st x ↔ (List.lookup x st.result).isSome := Iff.rfl

theorem memR_structure {L : List String} {n x : String} {f : Feature}
    {R : List (String × Feature)} :
    memR ⟨L, (n, f) :: R⟩ x ↔ x = n ∨ (List.lookup x R).isSome := by
  by_cases h : x = n
  · subst h; simp [memR, lookup_cons_self]
  · simp [memR, lookup_cons_ne h, h]

theorem getFeature_ok {store : Store} {name : String} {f : Feature}
    (h : getFeature store name = .ok f) : List.lookup name store = some f := by
  unfold getFeature at h
  cases hl : List.lookup name store <;> rw [hl] at h <;> simp_all

/-- What one successful `resolve` call guarantees: the list and map only grow,
the resolved name ends up in the map, dependency-closure and store-membership
of the map are preserved, every newly resolved name is reachable from the
requested one, and every newly resolved name was itself completed by a
successful nested `resolve` call (at no more fuel) that started without it. -/
structure ResolveOk (store : Store) (fuel : Nat) (name : String)
    (st st' : RState) : Prop where
  extL : ∃ l, st'.list = st.list ++ l
  extR : ∃ r, st'.result = r ++ st.result
  post : memR st' name
  mono : ∀ x, memR st x → memR st' x
  closed : Closed store st → Closed store st'
  inStore : (∀ n, memR st n → (List.lookup n store).isSome) →
    ∀ n, memR st' n → (List.lookup n store).isSome
  reach : ∀ x, ¬ memR st x → memR st' x →
    Relation.ReflTransGen (depEdge store) name x
  fetch : ∀ x, ¬ memR st x → memR st' x → ∃ f' stA stB, f' ≤ fuel ∧
    resolve f' store x stA = .ok stB ∧ ¬ memR stA x ∧
    (Closed store st → Closed store stA)

/-- The same guarantees for one run of the resolution loop over a name list. -/
structure ResolveListOk (store : Store) (fuel : Nat) (ds : List String)
    (st st' : RState) : Prop where
  extL : ∃ l, st'.list = st.list ++ l
  extR : ∃ r, st'.result = r ++ st.result
  postAll : ∀ d ∈ ds, memR st' d
  mono : ∀ x, memR st x → memR st' x
  closed : Closed store st → Closed store st'
  inStore : (∀ n, memR st n → (List.lookup n store).isSome) →
    ∀ n, memR st' n → (List.lookup n store).isSome
  reach : ∀ x, ¬ memR st x → memR st' x →
    ∃ d ∈ ds, Relation.ReflTransGen (depEdge store) d x
  fetch : ∀ x, ¬ memR st x → memR st' x → ∃ f' stA stB, f' ≤ fuel ∧
    resolve f' store x stA = .ok stB ∧ ¬ memR stA x ∧
    (Closed store st → Closed store stA)

theorem resolveList_ok_props {store : Store} {fuel : Nat}
    (IH : ∀ name st st', resolve fuel store name st = .ok st' →
      ResolveOk store fuel name st st') :
    ∀ ds st st', resolveList fuel store ds st = .ok st' →
      ResolveListOk store fuel ds st st' := by
  intro ds
  induction ds with
  | nil =>
    intro st st' h
    rw [resolveList_nil] at h
    injection h with h'
    subst h'
    exact {
      extL := ⟨[], by simp⟩
      extR := ⟨[], rfl⟩
      postAll := by intro d hd; simp at hd
      mono := fun _ hx => hx
      closed := fun hc => hc
      inStore := fun hs => hs
      reach := fun x hx hx' => absurd hx' hx
      fetch := fun x hx hx' => absurd hx' hx }
  | cons d ds ih =>
    intro st st' h
    rw [resolveList_cons] at h
    cases hd : resolve fuel store d st with
    | error e => rw [hd] at h; simp at h
    | ok st₁ =>
      rw [hd] at h
      replace h : resolveList fuel store ds st₁ = .ok st' := h
      have R1 := IH d st st₁ hd
      have RL := ih st₁ st' h
      obtain ⟨l1, hl1⟩ := R1.extL
      obtain ⟨l2, hl2⟩ := RL.extL
      obtain ⟨r1, hr1⟩ := R1.extR
      obtain ⟨r2, hr2⟩ := RL.extR
      exact {
        extL := ⟨l1 ++ l2, by rw [hl2, hl1, List.append_assoc]⟩
        extR := ⟨r2 ++ r1, by rw [hr2, hr1, List.append_assoc]⟩
        postAll := by
          intro d' hd'
          rcases List.mem_cons.mp hd' with h' | h'
          · subst h'; exact RL.mono _ R1.post
          · exact RL.postAll _ h'
        mono := fun x hx => RL.mono x (R1.mono x hx)
        closed := fun hc => RL.closed (R1.closed hc)
        inStore := fun hs => RL.inStore (R1.inStore hs)
        reach := by
          intro x hx hx'
          by_cases hmem : memR st₁ x
          · exact ⟨d, List.mem_cons_self d ds, R1.reach x hx hmem⟩
          · obtain ⟨d', hd', p⟩ := RL.reach x hmem hx'
            exact ⟨d', List.mem_cons_of_mem d hd', p⟩
        fetch := by
          intro x hx hx'
          by_cases hmem : memR st₁ x
          · exact R1.fetch x hx hmem
          · obtain ⟨f', stA, stB, hle, hres, hnm, hcl⟩ := RL.fetch x hmem hx'
            exact ⟨f', stA, stB, hle, hres, hnm, fun hc => hcl (R1.closed hc)⟩ }

theorem resolve_ok_props (store : Store) :
    ∀ (fuel : Nat) (name : String) (st st' : RState),
      resolve fuel store name st = .ok st' → ResolveOk store fuel name st st' := by
  intro fuel
  induction fuel with
  | zero => intro name st st' h; rw [resolve_zero] at h; simp at h
  | succ fuel ihf =>
    intro name st st' h
    have h0 := h
    rw [resolve_succ] at h
    by_cases hmem : memR st name
    · rw [if_pos hmem] at h
      injection h with h'
      subst h'
      exact {
        extL := ⟨[], by simp⟩
        extR := ⟨[], rfl⟩
        post := hmem
        mono := fun _ hx => hx
        closed := fun hc => hc
        inStore := fun hs => hs
        reach := fun x hx hx' => absurd hx' hx
        fetch := fun x hx hx' => absurd hx' hx }
    · rw [if_neg hmem] at h
      cases hg : getFeature store name with
      | error e => rw [hg] at h; simp at h
      | ok feature =>
        rw [hg] at h
        replace h : (match resolveList fuel store feature.Meta.Dependencies st
            with
          | .error e => Except.error e
          | .ok st' => Except.ok (⟨st'.list ++ [name],
              (name, feature) :: st'.result⟩ : RState)) = .ok st' := h
        cases hr : resolveList fuel store feature.Meta.Dependencies st with
        | error e => rw [hr] at h; simp at h
        | ok st₂ =>
          rw [hr] at h
          replace h : Except.ok (⟨st₂.list ++ [name],
            (name, feature) :: st₂.result⟩ : RState) = .ok st' := h
          injection h with h'
          subst h'
          have RL := resolveList_ok_props (fun n a b hh => ihf n a b hh)
            _ _ _ hr
          have hdeps : depsOf store name = feature.Meta.Dependencies := by
            unfold depsOf; rw [getFeature_ok hg]
          obtain ⟨l2, hl2⟩ := RL.extL
          obtain ⟨r2, hr2⟩ := RL.extR
          refine {
            extL := ⟨l2 ++ [name], by simp [hl2]⟩
            extR := ⟨(name, feature) :: r2, by simp [hr2]⟩
            post := by simp [memR_structure]
            mono := ?_
            closed := ?_
            inStore := ?_
            reach := ?_
            fetch := ?_ }
          · intro x hx
            rw [memR_structure]
            exact Or.inr (RL.mono x hx)
          · intro hcl n hn d hd
            rw [memR_structure] at hn ⊢
            rcases hn with hn | hn
            · subst hn
              rw [hdeps] at hd
              exact Or.inr (RL.postAll d hd)
            · exact Or.inr (RL.closed hcl n hn d hd)
          · intro hs n hn
            rw [memR_structure] at hn
            rcases hn with hn | hn
            · subst hn; rw [getFeature_ok hg]; rfl
            · exact RL.inStore hs n hn
          · intro x hx hx'
            by_cases hxn : x = name
            · subst hxn; exact Relation.ReflTransGen.refl
            · rw [memR_structure] at hx'
              rcases hx' with hx' | hx'
              · exact absurd hx' hxn
              · obtain ⟨d, hd, p⟩ := RL.reach x hx hx'
                refine Relation.ReflTransGen.head ?_ p
                unfold depEdge
                rw [hdeps]
                exact hd
          · intro x hx hx'
            by_cases hxn : x = name
            · subst hxn
              exact ⟨fuel + 1, st, _, Nat.le_refl _, h0, hmem, fun hc => hc⟩
            · rw [memR_structure] at hx'
              rcases hx' with hx' | hx'
              · exact absurd hx' hxn
              · obtain ⟨f', stA, stB, hle, hres, hnm, hcl⟩ :=
                  RL.fetch x hx hx'
                exact ⟨f', stA, stB, Nat.le_succ_of_le hle, hres, hnm, hcl⟩

/-- The model of the Go code's nontermination on cycles: a `resolve` call on a
name that lies on a dependency cycle and is not yet in the (dependency-closed)
result map can never succeed, at any fuel.  In the Go code such a call
recurses forever. -/
theorem resolve_cyclic_fails (store : Store) :
    ∀ (fuel : Nat) (name : String) (st : RState), Closed store st →
      ¬ memR st name → Cyclic store name →
      ∀ st', resolve fuel store name st ≠ .ok st' := by
  intro fuel
  induction fuel using Nat.strong_induction_on with
  | _ fuel IH =>
    cases fuel with
    | zero => intro name st _ _ _ st' h; rw [resolve_zero] at h; simp at h
    | succ fuel =>
      intro name st hcl hnm hcyc st' h
      rw [resolve_succ, if_neg hnm] at h
      obtain ⟨d, hedge, hpath⟩ := (Relation.TransGen.head'_iff).mp hcyc
      have hlf : ∃ feature, List.lookup name store = some feature := by
        unfold depEdge depsOf at hedge
        cases hl : List.lookup name store
        · rw [hl] at hedge; simp at hedge
        · exact ⟨_, rfl⟩
      obtain ⟨feature, hfeat⟩ := hlf
      have hg : getFeature store name = .ok feature := by
        unfold getFeature; rw [hfeat]
      rw [hg] at h
      replace h : (match resolveList fuel store feature.Meta.Dependencies st
          with
        | .error e => Except.error e
        | .ok st' => Except.ok (⟨st'.list ++ [name],
            (name, feature) :: st'.result⟩ : RState)) = .ok st' := h
      have hdeps : depsOf store name = feature.Meta.Dependencies := by
        unfold depsOf; rw [hfeat]
      have aux : ∀ (ds : List String) (stc : RState), Closed store stc →
          ¬ memR stc name →
          (∃ d ∈ ds, Relation.ReflTransGen (depEdge store) d name ∧
            depEdge store name d) →
          ∀ stc', resolveList fuel store ds stc ≠ .ok stc' := by
        intro ds
        induction ds with
        | nil =>
          intro stc _ _ hex stc' hh
          obtain ⟨d', hd', _⟩ := hex
          simp at hd'
        | cons d₀ ds' ihds =>
          intro stc hclc hnmc hex stc' hh
          rw [resolveList_cons] at hh
          cases hd0 : resolve fuel store d₀ stc with
          | error e => rw [hd0] at hh; simp at hh
          | ok st₁ =>
            rw [hd0] at hh
            replace hh : resolveList fuel store ds' st₁ = .ok stc' := hh
            obtain ⟨d', hdmem, hpd, hed⟩ := hex
            rcases List.mem_cons.mp hdmem with hdd | hdd
            · subst hdd
              have hcycd : Cyclic store d' := Relation.TransGen.tail' hpd hed
              have hnmd : ¬ memR stc d' := by
                intro hm
                exact hnmc (closedWalk hclc hpd hm)
              exact IH fuel (Nat.lt_succ_self fuel) d' stc hclc hnmd hcycd
                st₁ hd0
            · have R1 := resolve_ok_props store fuel d₀ stc st₁ hd0
              have hcl₁ : Closed store st₁ := R1.closed hclc
              have hnm₁ : ¬ memR st₁ name := by
                intro hm
                obtain ⟨f', stA, stB, hle, hres, hnmA, hclA⟩ :=
                  R1.fetch name hnmc hm
                exact IH f' (Nat.lt_succ_of_le hle) name stA (hclA hclc)
                  hnmA hcyc stB hres
              exact ihds st₁ hcl₁ hnm₁ ⟨d', hdd, hpd, hed⟩ stc' hh
      cases hr : resolveList fuel store feature.Meta.Dependencies st with
      | error e => rw [hr] at h; simp at h
      | ok st₂ =>
        refine aux feature.Meta.Dependencies st hcl hnm
          ⟨d, ?_, hpath, hedge⟩ st₂ hr
        rw [← hdeps]
        exact hedge

theorem append_singleton_split {α : Type} {l pre post : List α} {x n : α}
    (h : l ++ [x] = pre ++ n :: post) :
    (pre = l ∧ n = x ∧ post = []) ∨
      ∃ post', l = pre ++ n :: post' ∧ post = post' ++ [x] := by
  rcases List.append_eq_append_iff.mp h with ⟨a', h1, h2⟩ | ⟨c', h1, h2⟩
  · cases a' with
    | nil =>
      simp at h1 h2
      exact Or.inl ⟨h1, h2.1.symm, h2.2⟩
    | cons y ys => simp at h2
  · cases c' with
    | nil =>
      simp at h1 h2
      exact Or.inl ⟨h1.symm, h2.1, h2.2⟩
    | cons y ys =>
      injection h2 with hny hpost
      subst hny
      exact Or.inr ⟨ys, by rw [h1], hpost⟩

theorem ordered_append_singleton {store : Store} {l : List String}
    {name : String} (ho : Ordered store l)
    (hdeps : ∀ d ∈ depsOf store name, d ∈ l) :
    Ordered store (l ++ [name]) := by
  intro pre n post h d hd
  rcases append_singleton_split h with ⟨hpre, hn, _⟩ | ⟨post', hl, _⟩
  · subst hpre; subst hn; exact hdeps d hd
  · exact ho pre n post' hl d hd

theorem resolveList_inv {store : Store} {fuel : Nat}
    (IH : ∀ name st st', resolve fuel store name st = .ok st' →
      Inv store st → Inv store st') :
    ∀ ds st st', resolveList fuel store ds st = .ok st' →
      Inv store st → Inv store st' := by
  intro ds
  induction ds with
  | nil =>
    intro st st' h hinv
    rw [resolveList_nil] at h
    injection h with h'
    subst h'
    exact hinv
  | cons d ds ih =>
    intro st st' h hinv
    rw [resolveList_cons] at h
    cases hd : resolve fuel store d st with
    | error e => rw [hd] at h; simp at h
    | ok st₁ =>
      rw [hd] at h
      replace h : resolveList fuel store ds st₁ = .ok st' := h
      exact ih st₁ st' h (IH d st st₁ hd hinv)

/-- Every successful `resolve` call preserves the resolver invariant: keys of
the map match the ordered list, the list stays duplicate-free and
dependency-ordered, and the map stays dependency-closed with all entries
present in the store. -/
theorem resolve_inv (store : Store) :
    ∀ (fuel : Nat) (name : String) (st st' : RState),
      resolve fuel store name st = .ok st' → Inv store st → Inv store st' := by
  intro fuel
  induction fuel with
  | zero => intro name st st' h _; rw [resolve_zero] at h; simp at h
  | succ fuel ihf =>
    intro name st st' h hinv
    have h0 := h
    rw [resolve_succ] at h
    by_cases hmem : memR st name
    · rw [if_pos hmem] at h; injection h with h'; subst h'; exact hinv
    · rw [if_neg hmem] at h
      cases hg : getFeature store name with
      | error e => rw [hg] at h; simp at h
      | ok feature =>
        rw [hg] at h
        replace h : (match resolveList fuel store feature.Meta.Dependencies st
            with
          | .error e => Except.error e
          | .ok st' => Except.ok (⟨st'.list ++ [name],
              (name, feature) :: st'.result⟩ : RState)) = .ok st' := h
        cases hr : resolveList fuel store feature.Meta.Dependencies st with
        | error e => rw [hr] at h; simp at h
        | ok st₂ =>
          rw [hr] at h
          replace h : Except.ok (⟨st₂.list ++ [name],
            (name, feature) :: st₂.result⟩ : RState) = .ok st' := h
          injection h with h'
          subst h'
          have hinv₂ : Inv store st₂ :=
            resolveList_inv (fun n a b hh => ihf n a b hh) _ _ _ hr hinv
          have RL := resolveList_ok_props
            (fun n a b hh => resolve_ok_props store fuel n a b hh) _ _ _ hr
          have hdeps : depsOf store name = feature.Meta.Dependencies := by
            unfold depsOf; rw [getFeature_ok hg]
          have hnm₂ : ¬ memR st₂ name := by
            intro hm
            obtain ⟨d, hd, p⟩ := RL.reach name hmem hm
            have hcyc : Cyclic store name := by
              refine Relation.TransGen.head' ?_ p
              unfold depEdge
              rw [hdeps]
              exact hd
            exact resolve_cyclic_fails store (fuel + 1) name st
              hinv.2.2.2.1 hmem hcyc _ h0
          obtain ⟨hkeys₂, hnd₂, hord₂, _, _⟩ := hinv₂
          have hnlist : name ∉ st₂.list := by
            intro hm
            apply hnm₂
            rw [memR_iff_mem_keys, hkeys₂]
            simpa using hm
          have R := resolve_ok_props store (fuel + 1) name st _ h0
          refine ⟨?_, ?_, ?_, R.closed hinv.2.2.2.1, R.inStore hinv.2.2.2.2⟩
          · simp [hkeys₂]
          · simp [List.nodup_append, hnd₂, hnlist]
          · apply ordered_append_singleton hord₂
            intro d hd
            rw [hdeps] at hd
            have hmemd := RL.postAll d hd
            rw [memR_iff_mem_keys, hkeys₂] at hmemd
            simpa using hmemd

theorem resolveT_zero (store : Store) (name : String)
    (p : RState × List String) :
    resolveT 0 store name p = .error .outOfFuel := rfl

theorem resolveT_succ (fuel : Nat) (store : Store) (name : String)
    (st : RState) (tr : List String) :
    resolveT (fuel + 1) store name (st, tr) =
      if memR st name then .ok (st, tr)
      else
        match getFeature store name with
        | .error e => .error e
        | .ok feature =>
          match resolveListT fuel store feature.Meta.Dependencies
              (st, tr ++ [name]) with
          | .error e => .error e
          | .ok (st', tr') =>
            .ok (⟨st'.list ++ [name], (name, feature) :: st'.result⟩, tr') :=
  rfl

theorem resolveListT_nil (fuel : Nat) (store : Store)
    (p : RState × List String) : resolveListT fuel store [] p = .ok p := rfl

theorem resolveListT_cons (fuel : Nat) (store : Store) (d : String)
    (ds : List String) (p : RState × List String) :
    resolveListT fuel store (d :: ds) p =
      match resolveT fuel store d p with
      | .error e => .error e
      | .ok p' => resolveListT fuel store ds p' := by
  cases h : resolveT fuel store d p <;>
    simp only [resolveListT, List.foldlM_cons, h] <;> rfl

theorem resolveListT_of_resolveList {store : Store} {fuel : Nat}
    (IH : ∀ name st st' tr, resolve fuel store name st = .ok st' →
      ∃ ext extL, resolveT fuel store name (st, tr) = .ok (st', tr ++ ext) ∧
        st'.list = st.list ++ extL ∧ ext.Perm extL) :
    ∀ ds st st' tr, resolveList fuel store ds st = .ok st' →
      ∃ ext extL, resolveListT fuel store ds (st, tr) = .ok (st', tr ++ ext) ∧
        st'.list = st.list ++ extL ∧ ext.Perm extL := by
  intro ds
  induction ds with
  | nil =>
    intro st st' tr h
    rw [resolveList_nil] at h
    injection h with h'
    subst h'
    exact ⟨[], [], by simp [resolveListT_nil], by simp, List.Perm.refl []⟩
  | cons d ds ih =>
    intro st st' tr h
    rw [resolveList_cons] at h
    cases hd : resolve fuel store d st with
    | error e => rw [hd] at h; simp at h
    | ok st₁ =>
      rw [hd] at h
      replace h : resolveList fuel store ds st₁ = .ok st' := h
      obtain ⟨e1, L1, hT1, hl1, hp1⟩ := IH d st st₁ tr hd
      obtain ⟨e2, L2, hT2, hl2, hp2⟩ := ih st₁ st' (tr ++ e1) h
      refine ⟨e1 ++ e2, L1 ++ L2, ?_, ?_, hp1.append hp2⟩
      · rw [resolveListT_cons, hT1]
        show resolveListT fuel store ds (st₁, tr ++ e1) =
          Except.ok (st', tr ++ (e1 ++ e2))
        rw [hT2, List.append_assoc]
      · rw [hl2, hl1, List.append_assoc]

/-- The fetch-instrumented resolver simulates `resolve` and its fetch trace is
a permutation of the newly appended part of the ordered list: every fetch
leads to exactly one appended name and conversely. -/
theorem resolveT_of_resolve (store : Store) :
    ∀ (fuel : Nat) (name : String) (st st' : RState) (tr : List String),
      resolve fuel store name st = .ok st' →
      ∃ ext extL, resolveT fuel store name (st, tr) = .ok (st', tr ++ ext) ∧
        st'.list = st.list ++ extL ∧ ext.Perm extL := by
  intro fuel
  induction fuel with
  | zero => intro name st st' tr h; rw [resolve_zero] at h; simp at h
  | succ fuel ihf =>
    intro name st st' tr h
    rw [resolve_succ] at h
    rw [resolveT_succ]
    by_cases hmem : memR st name
    · rw [if_pos hmem] at h
      injection h with h'
      subst h'
      exact ⟨[], [], by rw [if_pos hmem]; simp, by simp, List.Perm.refl []⟩
    · rw [if_neg hmem] at h
      rw [if_neg hmem]
      cases hg : getFeature store name with
      | error e => rw [hg] at h; simp at h
      | ok feature =>
        rw [hg] at h
        replace h : (match resolveList fuel store feature.Meta.Dependencies st
            with
          | .error e => Except.error e
          | .ok st' => Except.ok (⟨st'.list ++ [name],
              (name, feature) :: st'.result⟩ : RState)) = .ok st' := h
        cases hr : resolveList fuel store feature.Meta.Dependencies st with
        | error e => rw [hr] at h; simp at h
        | ok st₂ =>
          rw [hr] at h
          replace h : Except.ok (⟨st₂.list ++ [name],
            (name, feature) :: st₂.result⟩ : RState) = .ok st' := h
          injection h with h'
          subst h'
          obtain ⟨ed, Ld, hTd, hld, hpd⟩ :=
            resolveListT_of_resolveList
              (fun n a b c hh => ihf n a b c hh) _ _ _ (tr ++ [name]) hr
          refine ⟨name :: ed, Ld ++ [name], ?_, by rw [hld, List.append_assoc],
            ?_⟩
          · show (match resolveListT fuel store feature.Meta.Dependencies
                (st, tr ++ [name]) with
              | .error e => (Except.error e :
                  Except Err (RState × List String))
              | .ok (st', tr') => Except.ok (⟨st'.list ++ [name],
                  (name, feature) :: st'.result⟩, tr')) =
              Except.ok (⟨st₂.list ++ [name],
                (name, feature) :: st₂.result⟩, tr ++ name :: ed)
            rw [hTd]
            simp
          · exact (hpd.cons name).trans
              (List.perm_append_singleton name Ld).symm

theorem memResolve_zero (store : Store) (name : String) (st : RState) :
    memResolve 0 store name st = .error .outOfFuel := rfl

theorem memResolve_succ (fuel : Nat) (store : Store) (name : String)
    (st : RState) :
    memResolve (fuel + 1) store name st =
      if memR st name then .ok st
      else
        match memGetFeature store name with
        | .error e => .error e
        | .ok feature =>
          match memResolveList fuel store feature.Meta.Dependencies st with
          | .error e => .error e
          | .ok st' =>
            .ok ⟨st'.list ++ [name], (name, feature) :: st'.result⟩ := rfl

theorem memResolveList_nil (fuel : Nat) (store : Store) (st : RState) :
    memResolveList fuel store [] st = .ok st := rfl

theorem memResolveList_cons (fuel : Nat) (store : Store) (d : String)
    (ds : List String) (st : RState) :
    memResolveList fuel store (d :: ds) st =
      match memResolve fuel store d st with
      | .error e => .error e
      | .ok st' => memResolveList fuel store ds st' := by
  cases h : memResolve fuel store d st <;>
    simp only [memResolveList, List.foldlM_cons, h] <;> rfl

theorem memGetFeature_ok {store : Store} {name : String} {f : Feature}
    (h : memGetFeature store name = .ok f) :
    List.lookup name store = some f := by
  unfold memGetFeature at h
  cases hl : List.lookup name store <;> rw [hl] at h <;> simp_all

theorem memResolveList_notFound {store : Store} {fuel : Nat}
    (IH : ∀ name st m, memResolve fuel store name st =
        .error (.notFound m) → List.lookup m store = none ∧
        Relation.ReflTransGen (depEdge store) name m) :
    ∀ ds st m, memResolveList fuel store ds st = .error (.notFound m) →
      List.lookup m store = none ∧
      ∃ d ∈ ds, Relation.ReflTransGen (depEdge store) d m := by
  intro ds
  induction ds with
  | nil => intro st m h; rw [memResolveList_nil] at h; simp at h
  | cons d ds ih =>
    intro st m h
    rw [memResolveList_cons] at h
    cases hd : memResolve fuel store d st with
    | error e =>
      rw [hd] at h
      replace h : (Except.error e :
        Except MemErr RState) = .error (.notFound m) := h
      injection h with h'
      subst h'
      obtain ⟨habs, hreach⟩ := IH d st m hd
      exact ⟨habs, d, List.mem_cons_self d ds, hreach⟩
    | ok st₁ =>
      rw [hd] at h
      obtain ⟨habs, d', hd', hreach⟩ := ih st₁ m h
      exact ⟨habs, d', List.mem_cons_of_mem d hd', hreach⟩

/-- A `notFound` error of the in-memory backend model names a feature that is
genuinely absent from the store and was reached from the resolved name along
dependency edges. -/
theorem memResolve_notFound (store : Store) :
    ∀ (fuel : Nat) (name : String) (st : RState) (m : String),
      memResolve fuel store name st = .error (.notFound m) →
      List.lookup m store = none ∧
      Relation.ReflTransGen (depEdge store) name m := by
  intro fuel
  induction fuel with
  | zero =>
    intro name st m h
    rw [memResolve_zero] at h
    injection h with h'
    simp at h'
  | succ fuel ihf =>
    intro name st m h
    rw [memResolve_succ] at h
    by_cases hmem : memR st name
    · rw [if_pos hmem] at h; simp at h
    · rw [if_neg hmem] at h
      cases hg : memGetFeature store name with
      | error e =>
        rw [hg] at h
        replace h : (Except.error e :
          Except MemErr RState) = .error (.notFound m) := h
        injection h with h'
        subst h'
        unfold memGetFeature at hg
        cases hl : List.lookup name store <;> rw [hl] at hg
        · injection hg with hg'
          injection hg' with hg''
          subst hg''
          exact ⟨hl, Relation.ReflTransGen.refl⟩
        · simp at hg
      | ok feature =>
        rw [hg] at h
        replace h : (match memResolveList fuel store
            feature.Meta.Dependencies st with
          | .error e => Except.error e
          | .ok st' => Except.ok (⟨st'.list ++ [name],
              (name, feature) :: st'.result⟩ : RState)) =
            .error (.notFound m) := h
        cases hr : memResolveList fuel store feature.Meta.Dependencies st with
        | error e =>
          rw [hr] at h
          replace h : (Except.error e :
            Except MemErr RState) = .error (.notFound m) := h
          injection h with h'
          subst h'
          obtain ⟨habs, d, hd, hreach⟩ := memResolveList_notFound
            (fun a b c hh => ihf a b c hh) _ _ _ hr
          refine ⟨habs, Relation.ReflTransGen.head ?_ hreach⟩
          unfold depEdge depsOf
          rw [memGetFeature_ok hg]
          exact hd
        | ok st₂ => rw [hr] at h; simp at h

theorem Resolve_ok_elim {fuel : Nat} {store : Store} {names l m}
    (h : Resolve fuel store names = .ok (l, m)) :
    resolveList fuel store names ⟨[], []⟩ = .ok ⟨l, m⟩ := by
  unfold Resolve at h
  cases hr : resolveList fuel store names ⟨[], []⟩ with
  | error e => rw [hr] at h; simp at h
  | ok st =>
    rw [hr] at h
    replace h : (Except.ok (st.list, st.result) :
      Except Err (List String × List (String × Feature))) = .ok (l, m) := h
    injection h with h'
    have h1 : st.list = l := congrArg Prod.fst h'
    have h2 : st.result = m := congrArg Prod.snd h'
    cases st
    simp only at h1 h2
    rw [h1, h2]

theorem inv_init (store : Store) : Inv store ⟨[], []⟩ := by
  refine ⟨rfl, List.nodup_nil, ?_, ?_, ?_⟩
  · intro pre n post h
    simp at h
  · intro n hn _ _
    simp [memR, List.lookup] at hn
  · intro n hn
    simp [memR, List.lookup] at hn

/-- C1: for every resolution call that succeeds, every dependency (direct or
transitive) of a resolved feature appears strictly earlier in the returned
ordered name sequence than that feature: a name is appended only after all of
its dependencies have been appended. -/
theorem resolve_dependencies_precede (fuel : Nat) (store : Store)
    (names l : List String) (m : List (String × Feature))
    (h : Resolve fuel store names = .ok (l, m)) :
    ∀ n ∈ l, ∀ d, Relation.TransGen (depEdge store) n d →
      d ∈ l ∧ List.indexOf d l < List.indexOf n l := by
  have hL := Resolve_ok_elim h
  have hinv : Inv store ⟨l, m⟩ := resolveList_inv
    (fun n a b hh => resolve_inv store fuel n a b hh) _ _ _ hL (inv_init store)
  obtain ⟨hkeys, hnd, hord, hcl, hst⟩ := hinv
  have step : ∀ n ∈ l, ∀ d, depEdge store n d →
      d ∈ l ∧ List.indexOf d l < List.indexOf n l := by
    intro n hn d hd
    obtain ⟨pre, post, hsplit⟩ := List.append_of_mem hn
    have hdpre : d ∈ pre := hord pre n post hsplit d hd
    constructor
    · rw [hsplit]
      exact List.mem_append_left _ hdpre
    · have hnpre : n ∉ pre := by
        intro hmem
        rw [hsplit] at hnd
        exact (List.nodup_append.mp hnd).2.2 hmem (List.mem_cons_self n post)
      rw [hsplit, List.indexOf_append_of_mem hdpre,
        List.indexOf_append_of_not_mem hnpre, List.indexOf_cons_self]
      have := List.indexOf_lt_length.mpr hdpre
      omega
  intro n hn d htg
  induction htg with
  | single h1 => exact step n hn _ h1
  | tail h1 h2 ih =>
    obtain ⟨hmem, hlt⟩ := ih
    obtain ⟨hmem2, hlt2⟩ := step _ hmem _ h2
    exact ⟨hmem2, Nat.lt_trans hlt2 hlt⟩

/-- Witness for C1 on a concrete store: `A` depends on `C`, and after
resolving `["A"]` the name `C` indeed precedes `A` in the output order. -/
theorem resolve_dependencies_precede_witness :
    Resolve 5 sampleStore ["A"] =
      .ok (["C", "A"],
        [("A", mkFeature "A" ["C"]), ("C", mkFeature "C" [])]) ∧
    List.indexOf "C" ["C", "A"] < List.indexOf "A" ["C", "A"] :=
  ⟨rfl,
    (resolve_dependencies_precede 5 sampleStore ["A"] ["C", "A"]
      [("A", mkFeature "A" ["C"]), ("C", mkFeature "C" [])] rfl "A"
      (by simp) "C" (Relation.TransGen.single (by
        unfold depEdge depsOf sampleStore mkFeature
        simp))).2⟩

/-- C2: a successful resolution returns a duplicate-free ordered sequence
whose names are exactly the keys of the returned map, and (via the
fetch-instrumented resolver, which simulates the plain one) every feature —
in particular one shared by two requested names — is fetched from the store
only once. -/
theorem resolve_no_duplicates (fuel : Nat) (store : Store)
    (names l : List String) (m : List (String × Feature))
    (h : Resolve fuel store names = .ok (l, m)) :
    l.Nodup ∧ (∀ n, n ∈ l ↔ (List.lookup n m).isSome) ∧
      m.map Prod.fst = l.reverse ∧
      ∃ tr, ResolveT fuel store names = .ok ((l, m), tr) ∧ tr.Nodup := by
  have hL := Resolve_ok_elim h
  have hinv : Inv store ⟨l, m⟩ := resolveList_inv
    (fun n a b hh => resolve_inv store fuel n a b hh) _ _ _ hL (inv_init store)
  obtain ⟨hkeys, hnd, _, _, _⟩ := hinv
  simp only at hkeys
  refine ⟨hnd, ?_, hkeys, ?_⟩
  · intro n
    have hmk := (@memR_iff_mem_keys ⟨l, m⟩ n)
    rw [memR_def] at hmk
    simp only at hmk
    rw [hkeys, List.mem_reverse] at hmk
    exact hmk.symm
  · obtain ⟨ext, extL, hT, hlist, hperm⟩ := resolveListT_of_resolveList
      (fun n a b c hh => resolveT_of_resolve store fuel n a b c hh)
      _ _ _ [] hL
    simp only [List.nil_append] at hT hlist
    refine ⟨ext, ?_, ?_⟩
    · unfold ResolveT
      rw [hT]
    · have hextl : extL = l := hlist.symm
      subst hextl
      exact hperm.symm.nodup hnd

/-- Witness for C2: requesting `A` and `B`, which share the dependency `C`,
yields `C` exactly once in the order and the map, with a duplicate-free
fetch trace. -/
theorem resolve_no_duplicates_witness :
    Resolve 5 sampleStore ["A", "B"] =
      .ok (["C", "A", "B"],
        [("B", mkFeature "B" ["C"]), ("A", mkFeature "A" ["C"]),
         ("C", mkFeature "C" [])]) ∧
    (["C", "A", "B"] : List String).Nodup :=
  ⟨rfl,
    (resolve_no_duplicates 5 sampleStore ["A", "B"] ["C", "A", "B"]
      [("B", mkFeature "B" ["C"]), ("A", mkFeature "A" ["C"]),
       ("C", mkFeature "C" [])] rfl).1⟩

/-- C5 counterexample: `GitStorage.Resolve` applied to an empty input sequence
succeeds with an empty ordered sequence and an empty map — it does not fail
with an `EmptyInput` condition. -/
theorem resolve_empty_input_counterexample :
    Resolve 5 sampleStore [] = .ok ([], []) := rfl

/-- C5 (amended): the git-backed `Resolve` performs no empty-input check and
succeeds with empty results on an empty input sequence; the distinct
`EmptyInput` failure (`No features provided to resolve`) is the behavior of
the in-memory backend's resolution (modelled from the spec, its
implementation not being among the sources), which does reject an empty
input. -/
theorem resolve_empty_input_behavior (fuel : Nat) (store : Store) :
    Resolve fuel store [] = .ok ([], []) ∧
      memoryResolve fuel store [] = .error .emptyInput :=
  ⟨rfl, rfl⟩

/-- C6 counterexample: the git backend's resolution failure on a missing
feature carries no feature name — two different missing features (`B`,
reached through `A`'s dependencies, and the directly requested `Q`) produce
the identical fixed sentinel error value, so the error cannot name the
missing feature. -/
theorem resolve_missing_nameless_counterexample :
    Resolve 5 sampleStoreMissing ["A"] = .error .errFileNotFound ∧
    Resolve 5 sampleStoreMissing ["Q"] = .error .errFileNotFound :=
  ⟨rfl, rfl⟩

/-- C6 (amended): resolving a set of names that leads to a name absent from
the store — requested directly or reached through dependencies — cannot
succeed and aborts with no partial result; the git backend fails by
propagating go-git's fixed name-free sentinel (`errFileNotFound`, never
wrapped with a feature name), while the in-memory backend (modelled from the
spec; its test pins `Feature '<name>' was not found`) fails with a
`NotFound` error naming that exact missing feature: the carried name is
absent from the store and reachable from a requested name, and a directly
requested missing name heading the list is named exactly. -/
theorem resolve_missing_behavior (store : Store) (names : List String) :
    (∀ n ∈ names, ∀ d, Relation.ReflTransGen (depEdge store) n d →
      List.lookup d store = none →
      ∀ (fuel : Nat) r, Resolve fuel store names ≠ .ok r) ∧
    (∀ (fuel : Nat) (e : Err), Resolve fuel store names = .error e →
      e = .errFileNotFound ∨ e = .outOfFuel) ∧
    (∀ (fuel : Nat) (m : String),
      memoryResolve fuel store names = .error (.notFound m) →
      List.lookup m store = none ∧
      ∃ n ∈ names, Relation.ReflTransGen (depEdge store) n m) ∧
    (∀ (fuel : Nat) (n : String) (rest : List String),
      names = n :: rest → List.lookup n store = none →
      memoryResolve (fuel + 1) store names = .error (.notFound n)) := by
  refine ⟨?_, ?_, ?_, ?_⟩
  · intro n hn d hpath hdnone fuel r hok
    obtain ⟨l, m⟩ := r
    have hL := Resolve_ok_elim hok
    have hinv : Inv store ⟨l, m⟩ := resolveList_inv
      (fun a b c hh => resolve_inv store fuel a b c hh) _ _ _ hL
      (inv_init store)
    have RL := resolveList_ok_props
      (fun a b c hh => resolve_ok_props store fuel a b c hh) _ _ _ hL
    have hmemn : memR ⟨l, m⟩ n := RL.postAll n hn
    have hmemd : memR ⟨l, m⟩ d := closedWalk hinv.2.2.2.1 hpath hmemn
    have hsome := hinv.2.2.2.2 d hmemd
    rw [hdnone] at hsome
    simp at hsome
  · intro fuel e _
    cases e
    · exact Or.inl rfl
    · exact Or.inr rfl
  · intro fuel m h
    cases names with
    | nil =>
      replace h : (Except.error MemErr.emptyInput :
        Except MemErr (List String × List (String × Feature))) =
          .error (.notFound m) := h
      injection h with h'
      simp at h'
    | cons a as =>
      replace h : (match memResolveList fuel store (a :: as) ⟨[], []⟩ with
        | .error e => (Except.error e :
            Except MemErr (List String × List (String × Feature)))
        | .ok st => .ok (st.list, st.result)) = .error (.notFound m) := h
      cases hr : memResolveList fuel store (a :: as) ⟨[], []⟩ with
      | error e =>
        rw [hr] at h
        replace h : (Except.error e :
          Except MemErr (List String × List (String × Feature))) =
            .error (.notFound m) := h
        injection h with h'
        subst h'
        obtain ⟨habs, d, hd, hreach⟩ := memResolveList_notFound
          (fun a b c hh => memResolve_notFound store fuel a b c hh)
          _ _ _ hr
        exact ⟨habs, d, hd, hreach⟩
      | ok st => rw [hr] at h; simp at h
  · intro fuel n rest hnames hnone
    subst hnames
    have h1 : memResolve (fuel + 1) store n ⟨[], []⟩ =
        .error (.notFound n) := by
      rw [memResolve_succ]
      rw [if_neg (show ¬ memR ⟨[], []⟩ n by simp [memR, List.lookup])]
      unfold memGetFeature
      rw [hnone]
    show (match memResolveList (fuel + 1) store (n :: rest) ⟨[], []⟩ with
      | .error e => (Except.error e :
          Except MemErr (List String × List (String × Feature)))
      | .ok st => .ok (st.list, st.result)) = .error (.notFound n)
    rw [memResolveList_cons, h1]

/-- Witness for C6 (amended): `A` depends on the absent `B`, so git
resolution cannot succeed, and the in-memory backend model names the
directly requested missing feature `B` exactly. -/
theorem resolve_missing_behavior_witness :
    List.lookup "B" sampleStoreMissing = none ∧
    Resolve 5 sampleStoreMissing ["A"] ≠ .ok (["A"], []) ∧
    memoryResolve 5 sampleStoreMissing ["B"] = .error (.notFound "B") :=
  ⟨rfl,
    (resolve_missing_behavior sampleStoreMissing ["A"]).1 "A" (by simp)
      "B" (Relation.ReflTransGen.single (by
        unfold depEdge depsOf sampleStoreMissing mkFeature
        simp)) rfl 5 (["A"], []),
    (resolve_missing_behavior sampleStoreMissing ["B"]).2.2.2 4 "B" [] rfl
      rfl⟩

end storageconnector

theorem string_foldl_append (l : List String) :
    ∀ (a : String), List.foldl (fun r s => r ++ s) a l =
      a ++ List.foldl (fun r s => r ++ s) "" l := by
  induction l with
  | nil => intro a; simp
  | cons x xs ih =>
    intro a
    rw [List.foldl_cons, List.foldl_cons, ih (a ++ x), ih ("" ++ x)]
    simp [String.append_assoc]

theorem join_cons (s : String) (l : List String) :
    String.join (s :: l) = s ++ String.join l := by
  show List.foldl (fun r t => r ++ t) "" (s :: l) = _
  rw [List.foldl_cons, string_foldl_append l ("" ++ s)]
  simp [String.join]

theorem exceptFoldl_cons {ε α β : Type} (f : α → β → Except ε α) (b : β)
    (l : List β) (a : α) :
    List.foldlM f a (b :: l) =
      match f a b with
      | .error e => .error e
      | .ok a' => List.foldlM f a' l := by
  cases h : f a b <;> simp only [List.foldlM_cons, h] <;> rfl

namespace pazuzu

open shared

theorem appendStep_copy {feature : Feature} {node : Node} {buf : String}
    {src dst : String} {rest : List String} (hcopy : node.value = "copy")
    (hargs : node.args = src :: dst :: rest) :
    appendStep feature buf node =
      .ok (buf ++ ("COPY " ++ feature.Meta.Name ++ "/" ++ src ++ " " ++ dst)
        ++ "\n") := by
  unfold appendStep fixCopyCmd
  rw [if_pos hcopy, hargs]

theorem appendStep_other {feature : Feature} {node : Node} {buf : String}
    (hcopy : node.value ≠ "copy") :
    appendStep feature buf node = .ok (buf ++ node.original ++ "\n") := by
  unfold appendStep
  rw [if_neg hcopy]

theorem appendStep_bad {feature : Feature} {node : Node} {buf : String}
    (hcopy : node.value = "copy") (hlen : node.args.length ≤ 1) :
    appendStep feature buf node = .error .invalidCopyCmdSyntax := by
  unfold appendStep fixCopyCmd
  rw [if_pos hcopy]
  cases hargs : node.args with
  | nil => rfl
  | cons a t =>
    cases t with
    | nil => rfl
    | cons b t' => rw [hargs] at hlen; simp at hlen

theorem appendFeature_nodes (feature : Feature) :
    ∀ (nodes : List Node) (acc : String),
      (∀ n ∈ nodes, n.value = "copy" → 2 ≤ n.args.length) →
      List.foldlM (appendStep feature) acc nodes =
        .ok (acc ++ String.join (nodes.map (renderNode feature))) := by
  intro nodes
  induction nodes with
  | nil =>
    intro acc _
    simp [String.join]
    rfl
  | cons n ns ih =>
    intro acc h
    have hn := h n (List.mem_cons_self n ns)
    have hns : ∀ m ∈ ns, m.value = "copy" → 2 ≤ m.args.length :=
      fun m hm => h m (List.mem_cons_of_mem n hm)
    rw [exceptFoldl_cons]
    by_cases hcopy : n.value = "copy"
    · obtain ⟨src, dst, rest, hargs⟩ :
          ∃ src dst rest, n.args = src :: dst :: rest := by
        have hlen := hn hcopy
        cases hargs : n.args with
        | nil => rw [hargs] at hlen; simp at hlen
        | cons a t =>
          cases t with
          | nil => rw [hargs] at hlen; simp at hlen
          | cons b t' => exact ⟨a, b, t', rfl⟩
      rw [appendStep_copy hcopy hargs]
      show List.foldlM (appendStep feature)
        (acc ++ ("COPY " ++ feature.Meta.Name ++ "/" ++ src ++ " " ++ dst)
          ++ "\n") ns = _
      rw [ih _ hns]
      have hrender : renderNode feature n =
          ("COPY " ++ feature.Meta.Name ++ "/" ++ src ++ " " ++ dst)
            ++ "\n" := by
        simp [renderNode, hcopy, hargs]
      rw [List.map_cons, join_cons, hrender]
      simp [String.append_assoc]
    · rw [appendStep_other hcopy]
      show List.foldlM (appendStep feature) (acc ++ n.original ++ "\n") ns = _
      rw [ih _ hns]
      have hrender : renderNode feature n = n.original ++ "\n" := by
        simp [renderNode, hcopy]
      rw [List.map_cons, join_cons, hrender]
      simp [String.append_assoc]

theorem appendFeature_fold_error (feature : Feature) :
    ∀ (nodes : List Node) (acc : String),
      (∃ n ∈ nodes, n.value = "copy" ∧ n.args.length ≤ 1) →
      List.foldlM (appendStep feature) acc nodes =
        .error .invalidCopyCmdSyntax := by
  intro nodes
  induction nodes with
  | nil =>
    intro acc h
    obtain ⟨n, hn, _⟩ := h
    simp at hn
  | cons n ns ih =>
    intro acc h
    rw [exceptFoldl_cons]
    obtain ⟨m, hm, hcopy, hlen⟩ := h
    rcases List.mem_cons.mp hm with hmn | hmn
    · subst hmn
      rw [appendStep_bad hcopy hlen]
    · by_cases hc : n.value = "copy"
      · cases hargs : n.args with
        | nil => rw [appendStep_bad hc (by rw [hargs]; simp)]
        | cons a t =>
          cases t with
          | nil => rw [appendStep_bad hc (by rw [hargs]; simp)]
          | cons b t' =>
            rw [appendStep_copy hc hargs]
            show List.foldlM (appendStep feature)
              (acc ++ ("COPY " ++ feature.Meta.Name ++ "/" ++ a ++ " " ++ b)
                ++ "\n") ns = _
            exact ih _ ⟨m, hmn, hcopy, hlen⟩
      · rw [appendStep_other hc]
        show List.foldlM (appendStep feature) (acc ++ n.original ++ "\n")
          ns = _
        exact ih _ ⟨m, hmn, hcopy, hlen⟩


/-- A successful `appendFeature` run exists whenever every copy node is
well-formed. -/
theorem appendFeature_ok (feature : shared.Feature)
    (h : ∀ n ∈ parseSnippet feature.Snippet, n.value = "copy" →
      2 ≤ n.args.length) :
    appendFeature feature =
      .ok (String.join ((parseSnippet feature.Snippet).map
        (renderNode feature))) := by
  unfold appendFeature
  rw [appendFeature_nodes feature _ "" h]
  simp

/-- `appendFeature` fails with `ErrInvalidCopyCmdSyntax` whenever some copy
node misses its source or destination token. -/
theorem appendFeature_error (feature : shared.Feature)
    (h : hasBadCopy feature) :
    appendFeature feature = .error .invalidCopyCmdSyntax := by
  unfold appendFeature
  exact appendFeature_fold_error feature _ "" h

theorem not_hasBadCopy_elim {feature : shared.Feature}
    (h : ¬ hasBadCopy feature) :
    ∀ n ∈ parseSnippet feature.Snippet, n.value = "copy" →
      2 ≤ n.args.length := by
  intro n hn hcopy
  by_contra hlt
  exact h ⟨n, hn, hcopy, by omega⟩

theorem composeAux_error :
    ∀ (features : List shared.Feature) (acc : String)
      (f : shared.Feature), f ∈ features → hasBadCopy f →
      ∃ g ∈ features, hasBadCopy g ∧
        composeAux features acc =
          .error ⟨g.Meta.Name, .invalidCopyCmdSyntax⟩ := by
  intro features
  induction features with
  | nil => intro acc f hf _; simp at hf
  | cons g0 rest ih =>
    intro acc f hf hbad
    by_cases hbad0 : hasBadCopy g0
    · refine ⟨g0, List.mem_cons_self g0 rest, hbad0, ?_⟩
      unfold composeAux
      rw [appendFeature_error g0 hbad0]
    · have hfrest : f ∈ rest := by
        rcases List.mem_cons.mp hf with hf0 | hf0
        · subst hf0; exact absurd hbad hbad0
        · exact hf0
      have hok := appendFeature_ok g0 (not_hasBadCopy_elim hbad0)
      obtain ⟨g, hg, hbadg, herr⟩ := ih
        (acc ++ "# " ++ g0.Meta.Name ++ "
" ++
          String.join ((parseSnippet g0.Snippet).map (renderNode g0)))
        f hfrest hbad
      refine ⟨g, List.mem_cons_of_mem g0 hg, hbadg, ?_⟩
      unfold composeAux
      rw [hok]
      exact herr

/-- C3: for a feature named `X` whose snippet's copy-class directives all
carry exactly a source and a destination token, the writer emits each copy
directive with the source prefixed by the feature name
(`COPY X/src dst`), leaving the destination unchanged, and emits every
non-copy line verbatim (`renderNode` states exactly that per-line shape). -/
theorem appendFeature_rewrites_copy (feature : shared.Feature)
    (hok : ∀ n ∈ parseSnippet feature.Snippet, n.value = "copy" →
      n.args.length = 2) :
    appendFeature feature =
      .ok (String.join ((parseSnippet feature.Snippet).map
        (renderNode feature))) := by
  apply appendFeature_ok
  intro n hn hcopy
  rw [hok n hn hcopy]

/-- Witness for C3: the feature `X` with snippet
`RUN apt-get update\nCOPY foo bar` composes to the rewritten
`COPY X/foo bar` with the `RUN` line kept verbatim. -/
theorem appendFeature_rewrites_copy_witness :
    appendFeature sampleFeatureCopy =
      .ok (String.join ((parseSnippet sampleFeatureCopy.Snippet).map
        (renderNode sampleFeatureCopy))) ∧
    String.join ((parseSnippet sampleFeatureCopy.Snippet).map
      (renderNode sampleFeatureCopy)) =
        "RUN apt-get update\nCOPY X/foo bar\n" :=
  ⟨appendFeature_rewrites_copy sampleFeatureCopy (by decide), rfl⟩

/-- C10: a copy-class directive with three or more tokens after the verb is
emitted with every token after the second silently discarded — the output
contains only the feature-prefixed first token and the second token (the
shape `renderNode` gives it) — and no error is reported. -/
theorem appendFeature_discards_extra_copy_tokens (feature : shared.Feature)
    (hok : ∀ n ∈ parseSnippet feature.Snippet, n.value = "copy" →
      2 ≤ n.args.length)
    (hex : ∃ n ∈ parseSnippet feature.Snippet, n.value = "copy" ∧
      3 ≤ n.args.length) :
    appendFeature feature =
      .ok (String.join ((parseSnippet feature.Snippet).map
        (renderNode feature))) :=
  appendFeature_ok feature hok

/-- Witness for C10: the feature `Z` with snippet `COPY a b c` emits
`COPY Z/a b`, dropping `c`, with no error. -/
theorem appendFeature_discards_extra_copy_tokens_witness :
    appendFeature sampleFeatureCopyExtra =
      .ok (String.join ((parseSnippet sampleFeatureCopyExtra.Snippet).map
        (renderNode sampleFeatureCopyExtra))) ∧
    String.join ((parseSnippet sampleFeatureCopyExtra.Snippet).map
      (renderNode sampleFeatureCopyExtra)) = "COPY Z/a b\n" :=
  ⟨appendFeature_discards_extra_copy_tokens sampleFeatureCopyExtra
    (by decide) (by decide), rfl⟩

/-- C7: if some feature of the sequence has a copy-class directive missing
its source or destination token, composition fails — no composed document is
produced — with an error naming an offending feature (the spec-modelled
driver wraps the writer's `ErrInvalidCopyCmdSyntax` with the feature's
name). -/
theorem compose_names_offending_feature (base : String)
    (features : List shared.Feature) (f : shared.Feature)
    (hf : f ∈ features) (hbad : hasBadCopy f) :
    ∃ g ∈ features, hasBadCopy g ∧
      compose base features = .error ⟨g.Meta.Name, .invalidCopyCmdSyntax⟩ :=
  composeAux_error features _ f hf hbad

/-- Witness for C7: composing `X` (well-formed) followed by `Y` (whose
snippet holds the one-token `COPY foo`) fails naming a feature with the
malformed directive. -/
theorem compose_names_offending_feature_witness :
    sampleFeatureBadCopy ∈ [sampleFeatureCopy, sampleFeatureBadCopy] ∧
    hasBadCopy sampleFeatureBadCopy ∧
    ∃ g ∈ [sampleFeatureCopy, sampleFeatureBadCopy], hasBadCopy g ∧
      compose "ubuntu" [sampleFeatureCopy, sampleFeatureBadCopy] =
        .error ⟨g.Meta.Name, .invalidCopyCmdSyntax⟩ :=
  ⟨by simp, by decide,
    compose_names_offending_feature "ubuntu"
      [sampleFeatureCopy, sampleFeatureBadCopy] sampleFeatureBadCopy
      (by simp) (by decide)⟩

end pazuzu

namespace Main

theorem generateDockerfile_foldl (features : List Feature) :
    ∀ acc : String,
      features.foldl
        (fun buf f => buf ++ ("# " ++ f.Name ++ "\n") ++
          (f.DockerData ++ "\n")) acc =
        acc ++ String.join (features.map
          (fun f => "# " ++ f.Name ++ "\n" ++ f.DockerData ++ "\n")) := by
  induction features with
  | nil => intro acc; simp [String.join]
  | cons f fs ih =>
    intro acc
    rw [List.foldl_cons, ih, List.map_cons, join_cons]
    simp [String.append_assoc]

/-- C8 (amended): for every feature sequence whose snippets contain no
copy-class directives, the generated document equals exactly: one fixed
header line `FROM ubuntu:latest` (the base image is hardcoded by
`generateDockerfile`, not caller-supplied), then for each feature in order a
comment line naming it followed by its snippet verbatim, then the trailing
interactive-shell command directive. -/
theorem generateDockerfile_structure (features : List Feature)
    (hnc : ∀ f ∈ features, ∀ n ∈ pazuzu.parseSnippet f.DockerData,
      n.value ≠ "copy") :
    generateDockerfile features =
      "FROM ubuntu:latest\n" ++
        String.join (features.map
          (fun f => "# " ++ f.Name ++ "\n" ++ f.DockerData ++ "\n")) ++
        "CMD /bin/bash\n" := by
  unfold generateDockerfile
  rw [generateDockerfile_foldl]

/-- Witness for C8 (amended) on two concrete copy-free features. -/
theorem generateDockerfile_structure_witness :
    (∀ f ∈ sampleMainFeatures, ∀ n ∈ pazuzu.parseSnippet f.DockerData,
      n.value ≠ "copy") ∧
    generateDockerfile sampleMainFeatures =
      "FROM ubuntu:latest\n# python\nRUN apt-get install python\n# quiet\nRUN true\nCMD /bin/bash\n" :=
  ⟨by decide,
    (generateDockerfile_structure sampleMainFeatures (by decide)).trans
      (by rfl)⟩

/-- C8 counterexample: the generated document's header is the hardcoded
`FROM ubuntu:latest`, not a caller-supplied base image: with base `debian:8`
and no features, the code's output differs from the spec-described
composition. -/
theorem generateDockerfile_fixed_base_counterexample :
    generateDockerfile [] ≠ composeSpecHeader "debian:8" [] := by decide

theorem runLoop_spec (exec : String → Nat × String) :
    ∀ (specs : List TestSpec) (acc : Nat),
      runLoop exec specs acc =
        (acc + (specs.filter (fun s => 0 < (exec s.Cmd).1)).length,
         specs.map (fun s => s.Cmd)) := by
  intro specs
  induction specs with
  | nil => intro acc; simp [runLoop]
  | cons s rest ih =>
    intro acc
    by_cases h : 0 < (exec s.Cmd).1
    · have hde : dockerExec exec s.Cmd =
          .error ("exit code " ++ toString (exec s.Cmd).1 ++ ": " ++
            (exec s.Cmd).2) := by
        unfold dockerExec
        rw [if_pos h]
      have h1 : runLoop exec (s :: rest) acc =
          ((runLoop exec rest (acc + 1)).1,
            s.Cmd :: (runLoop exec rest (acc + 1)).2) := by
        simp only [runLoop, hde]
      rw [h1, ih]
      have hc : (decide (0 < (exec s.Cmd).1)) = true := by simpa using h
      simp only [List.filter_cons, List.map_cons, hc, if_true,
        List.length_cons, Prod.mk.injEq]
      refine ⟨by omega, ?_⟩
      simp
    · have hde : dockerExec exec s.Cmd = .ok () := by
        unfold dockerExec
        rw [if_neg h]
      have h1 : runLoop exec (s :: rest) acc =
          ((runLoop exec rest acc).1,
            s.Cmd :: (runLoop exec rest acc).2) := by
        simp only [runLoop, hde]
      rw [h1, ih]
      have hc : (decide (0 < (exec s.Cmd).1)) = false := by simpa using h
      simp only [List.filter_cons, List.map_cons, hc, Bool.false_eq_true,
        if_false, Prod.mk.injEq]

/-- C4: replaying the plan executes every entry's command in order — the
execution trace equals the full command list even when entries fail — the
failure count is exactly the number of entries whose instruction exits
non-zero, and the overall call reports failure iff that count is positive. -/
theorem runTestSpec_replays_all (exec : String → Nat × String)
    (specs : List TestSpec) :
    (runLoop exec specs 0).2 = specs.map (fun s => s.Cmd) ∧
    (runLoop exec specs 0).1 =
      (specs.filter (fun s => 0 < (exec s.Cmd).1)).length ∧
    ((∃ e, runTestSpec exec specs = .error e) ↔
      0 < (specs.filter (fun s => 0 < (exec s.Cmd).1)).length) := by
  have hrl := runLoop_spec exec specs 0
  refine ⟨by rw [hrl], by rw [hrl]; simp, ?_⟩
  unfold runTestSpec
  rw [hrl]
  by_cases h : 0 < (specs.filter (fun s => 0 < (exec s.Cmd).1)).length
  · simp [h]
  · simp [h]

theorem buildTestSpecs_foldl (features : List Feature) :
    ∀ acc : List TestSpec,
      features.foldl
        (fun specs f => specs ++ [⟨f.Name, f.TestInstruction⟩]) acc =
        acc ++ features.map (fun f => ⟨f.Name, f.TestInstruction⟩) := by
  induction features with
  | nil => intro acc; simp
  | cons f fs ih => intro acc; simp [List.foldl_cons, ih]

theorem hexVal_hexDigit {v : Nat} (hv : v < 16) :
    hexVal? (hexDigit v) = some v := by
  interval_cases v <;> rfl

theorem decodeHex_zeros (v : Nat) (hv : v < 256) :
    decodeHex '0' '0' (hexDigit (v / 16)) (hexDigit (v % 16)) = some v := by
  unfold decodeHex
  rw [hexVal_hexDigit (show v / 16 < 16 by omega),
    hexVal_hexDigit (show v % 16 < 16 by omega)]
  show some (((0 * 16 + 0) * 16 + v / 16) * 16 + v % 16) = some v
  congr 1
  omega

theorem decString_escChar (c : Char) (tail cs rest : List Char)
    (h : decString tail = some (cs, rest)) :
    decString (escChar c ++ tail) = some (c :: cs, rest) := by
  unfold escChar
  by_cases h1 : c = '"'
  · subst h1
    unfold decString
    simp [h]
  · rw [if_neg h1]
    by_cases h2 : c = '\\'
    · subst h2
      unfold decString
      simp [h]
    · rw [if_neg h2]
      by_cases h3 : c = '\n'
      · subst h3
        unfold decString
        simp [h]
      · rw [if_neg h3]
        by_cases h4 : c = '\r'
        · subst h4
          unfold decString
          simp [h]
        · rw [if_neg h4]
          by_cases h5 : c = '\t'
          · subst h5
            unfold decString
            simp [h]
          · rw [if_neg h5]
            by_cases h6 : c.toNat < 32
            · rw [if_pos h6]
              simp only [List.cons_append, List.nil_append]
              unfold decString
              simp only [reduceIte]
              rw [decodeHex_zeros c.toNat (by omega), h]
              simp [Char.ofNat_toNat]
            · rw [if_neg h6]
              simp only [List.cons_append, List.nil_append]
              unfold decString
              simp [h, h1, h2]

theorem decString_encode (s : List Char) :
    ∀ rest, decString ((s.map escChar).flatten ++ '"' :: rest) =
      some (s, rest) := by
  induction s with
  | nil =>
    intro rest
    unfold decString
    simp
  | cons c cs ih =>
    intro rest
    rw [List.map_cons, List.flatten_cons, List.append_assoc]
    exact decString_escChar c _ cs rest (ih rest)

theorem stripLit_append (pat : List Char) :
    ∀ l, stripLit pat (pat ++ l) = some l := by
  induction pat with
  | nil => intro l; rfl
  | cons p ps ih => intro l; simp [stripLit, ih]

theorem decSpec_encode (t : TestSpec) (rest : List Char) :
    decSpec (encSpecChars t ++ rest) = some (t, rest) := by
  unfold decSpec encSpecChars
  simp [stripLit, decString_encode, List.append_assoc]

theorem encElemsChars_length (ts : List TestSpec) :
    ts.length ≤ (encElemsChars ts).length := by
  induction ts with
  | nil => simp [encElemsChars]
  | cons t ts ih => simp [encElemsChars]; omega

theorem decElems_encode :
    ∀ (ts : List TestSpec) (fuel : Nat) (t : TestSpec) (tail : List Char),
      ts.length < fuel →
      decElems fuel (encSpecChars t ++ (encElemsChars ts ++ ']' :: tail)) =
        some (t :: ts) := by
  intro ts
  induction ts with
  | nil =>
    intro fuel t tail hf
    cases fuel with
    | zero => omega
    | succ fuel =>
      simp only [encElemsChars, List.nil_append]
      unfold decElems
      rw [decSpec_encode]
      rfl
  | cons t2 ts' ih =>
    intro fuel t tail hf
    cases fuel with
    | zero => simp at hf
    | succ fuel =>
      simp only [encElemsChars, List.cons_append, List.append_assoc]
      unfold decElems
      rw [decSpec_encode]
      show (match decElems fuel
          (encSpecChars t2 ++ (encElemsChars ts' ++ ']' :: tail)) with
        | none => none
        | some ts => some (t :: ts)) = some (t :: t2 :: ts')
      rw [ih fuel t2 tail (by simp at hf; omega)]

theorem stripLit_null_bracket (X : List Char) :
    stripLit ("null").data ('[' :: X) = none := rfl

theorem decodeSpecs_encodeSpecs (specs : List TestSpec) :
    decodeSpecs (encodeSpecs specs) = some specs := by
  cases specs with
  | nil => rfl
  | cons t ts =>
    show decElems ((encSpecChars t ++ encElemsChars ts ++
      (']' :: ['\n'])).length + 1)
      (encSpecChars t ++ encElemsChars ts ++ (']' :: ['\n'])) =
      some (t :: ts)
    rw [List.append_assoc]
    exact decElems_encode ts _ t ['\n']
      (by have := encElemsChars_length ts; simp [List.length_append]; omega)

/-- C9: building the test plan yields one `{feature, cmd}` entry per feature
in the same order — including features whose test instruction is empty — and
decoding the written plan file restores exactly the same ordered entry
sequence. -/
theorem testSpec_roundtrip (features : List Feature) :
    buildTestSpecs features =
      features.map (fun f => ⟨f.Name, f.TestInstruction⟩) ∧
    readTestSpec (generateTestSpec features) = .ok (buildTestSpecs features) := by
  have hb : buildTestSpecs features =
      features.map (fun f => ⟨f.Name, f.TestInstruction⟩) := by
    unfold buildTestSpecs
    rw [buildTestSpecs_foldl]
    simp
  refine ⟨hb, ?_⟩
  unfold readTestSpec generateTestSpec
  rw [decodeSpecs_encodeSpecs]

end Main
